import Mathlib

/-!
Verification development for the pen-plotter photo-to-motion-code pipeline
(reference implementation: app.js).  The pipeline scales an image, rotates it
per pass, raster-scans rows for dark-pixel runs, collapses each run to a
two-point segment, converts pixel coordinates to millimetres, and serializes
the strokes as motion instructions.

Pixel colour channels are modelled as natural numbers, real-valued quantities
(luminance, millimetre coordinates, angles) as rationals, and the rotated
bounding-box computation (which uses trigonometry) over the reals.  The
host-canvas rendering of the rotated image (drawImage) is host-provided and
is abstracted as a function from the pass angle to a pixel buffer.
-/

namespace PenPlotter

/-- The colour channels of one RGBA pixel (the alpha channel is never read). -/
structure RGB where
  r : ℕ
  g : ℕ
  b : ℕ
deriving DecidableEq

/-- A pixel buffer: a function from column and row to the pixel colour.
Reads outside the canvas are handled by pixelGray below. -/
def Buffer : Type := ℕ → ℕ → RGB

/-- ITU-R BT.709 luminance, from pixelGray in app.js:
0.2126*r + 0.7152*g + 0.0722*b. -/
def luma (p : RGB) : ℚ :=
  0.2126 * p.r + 0.7152 * p.g + 0.0722 * p.b

/-- pixelGray from app.js: out-of-bounds reads return white (255).
Column and row indices are naturals, so the x < 0 and y < 0 guards of the
source are vacuous here. -/
def pixelGray (buf : Buffer) (rotW rotH : ℕ) (x y : ℕ) : ℚ :=
  if x < rotW ∧ y < rotH then luma (buf x y) else 255

/-- A pixel is dark iff its gray value is strictly below the threshold
(`g < threshold` in app.js). -/
def isDark (buf : Buffer) (rotW rotH : ℕ) (threshold : ℤ) (x y : ℕ) : Bool :=
  decide (pixelGray buf rotW rotH x y < (threshold : ℚ))

/-- JavaScript Math.round: round half toward positive infinity. -/
def jsRound (q : ℚ) : ℤ := ⌊q + 1 / 2⌋

/-- Truncation toward zero, as used by the JavaScript % operator. -/
def ratTrunc (q : ℚ) : ℤ := if 0 ≤ q then ⌊q⌋ else ⌈q⌉

/-- The JavaScript remainder operator a % b: the result has the sign of the
dividend (a - b * trunc(a / b)). -/
def jsMod (a b : ℚ) : ℚ := a - b * (ratTrunc (a / b) : ℚ)

/-- Number.prototype.toFixed(3) as a rounding to 3 decimal places
(ties go to the larger value). -/
def fix3 (q : ℚ) : ℚ := (⌊q * 1000 + 1 / 2⌋ : ℚ) / 1000

/-- targetPxWidth from the process handler:
Math.max(1, Math.round(widthMM * pxPerMM)). -/
def targetPxWidth (widthMM pxPerMM : ℚ) : ℤ :=
  max 1 (jsRound (widthMM * pxPerMM))

/-- scale from the process handler: targetPxWidth / img.naturalWidth. -/
def scaleFactor (widthMM pxPerMM naturalWidth : ℚ) : ℚ :=
  (targetPxWidth widthMM pxPerMM : ℚ) / naturalWidth

/-- targetPxHeight from the process handler:
Math.round(img.naturalHeight * scale). -/
def targetPxHeight (widthMM pxPerMM naturalWidth naturalHeight : ℚ) : ℤ :=
  jsRound (naturalHeight * scaleFactor widthMM pxPerMM naturalWidth)

/-- lineSpacingPx from the process handler:
Math.max(1, Math.round(lineSpacingMM * pxPerMM)). -/
def lineSpacingPx (lineSpacingMM pxPerMM : ℚ) : ℤ :=
  max 1 (jsRound (lineSpacingMM * pxPerMM))

/-- The pass-angle list from the process handler:
for p = 0 .. passes-1, (angleDeg + p * 180 / passes) % 360 with the
JavaScript remainder operator. -/
def passAngles (angleDeg : ℚ) (passes : ℕ) : List ℚ :=
  (List.range passes).map
    (fun (p : ℕ) => jsMod (angleDeg + (p : ℚ) * 180 / (passes : ℚ)) 360)

/-- A raster point in pixel coordinates: (x, y). -/
abbrev PxPoint : Type := ℕ × ℕ

/-- A segment: the two extreme points of one dark run (start, end). -/
abbrev Seg : Type := PxPoint × PxPoint

/-- The segment emitted for a finished run: its first and its last point
(strokes.push([run[0], run[run.length-1]]) in app.js). -/
def runSeg (run : List PxPoint) : Seg :=
  (run.headD (0, 0), run.getLastD (0, 0))

/-- The inner scanning loop of extractStrokesFromImage over one row:
walks the remaining columns carrying the emitted segments, the inRun flag
and the current run (the list of dark points pushed since the run opened);
closes the run on a dark-to-light transition and at end of row. -/
def scanRowGo (dark : ℕ → Bool) (y : ℕ) :
    List ℕ → List Seg → Bool → List PxPoint → List Seg
  | [], acc, inRun, run =>
      if inRun ∧ 1 ≤ run.length then acc ++ [runSeg run] else acc
  | x :: xs, acc, inRun, run =>
      if dark x then
        if inRun then scanRowGo dark y xs acc true (run ++ [(x, y)])
        else scanRowGo dark y xs acc true [(x, y)]
      else
        if inRun then
          scanRowGo dark y xs (if 1 ≤ run.length then acc ++ [runSeg run] else acc) false []
        else scanRowGo dark y xs acc false run

/-- One scanned row: columns x = 0 .. rotW-1, starting outside a run. -/
def scanRow (dark : ℕ → Bool) (rotW y : ℕ) : List Seg :=
  scanRowGo dark y (List.range rotW) [] false []

/-- The scanned row indices: y = 0, spacing, 2*spacing, ... while y < rotH
(the i-th loop iteration visits y = i * spacing; there are
ceil(rotH / spacing) iterations). -/
def scanRows (spacing rotH : ℕ) : List ℕ :=
  (List.range ((rotH + spacing - 1) / spacing)).map (fun i => spacing * i)

/-- The raster-scanning part of extractStrokesFromImage: every scanned row
contributes its runs, rows in increasing order. -/
def extractSegments (buf : Buffer) (rotW rotH spacing : ℕ) (threshold : ℤ) : List Seg :=
  (scanRows spacing rotH).flatMap
    (fun y => scanRow (fun x => isDark buf rotW rotH threshold x y) rotW y)

/-- simpleStrokes in app.js: each segment becomes the two-point stroke of
its endpoints, coordinates now as rationals (the source adds 0.0). -/
def segToStroke (s : Seg) : List (ℚ × ℚ) :=
  [((s.1.1 : ℚ), (s.1.2 : ℚ)), ((s.2.1 : ℚ), (s.2.2 : ℚ))]

/-- The rotated bounding box of extractStrokesFromImage:
angleRad = angleDeg * pi / 180, rotW = ceil(W*|cos| + H*|sin|),
rotH = ceil(W*|sin| + H*|cos|). -/
noncomputable def rotDims (w h : ℕ) (angleDeg : ℚ) : ℕ × ℕ :=
  (⌈(w : ℝ) * |Real.cos ((angleDeg : ℝ) * Real.pi / 180)| +
      (h : ℝ) * |Real.sin ((angleDeg : ℝ) * Real.pi / 180)|⌉₊,
   ⌈(w : ℝ) * |Real.sin ((angleDeg : ℝ) * Real.pi / 180)| +
      (h : ℝ) * |Real.cos ((angleDeg : ℝ) * Real.pi / 180)|⌉₊)

/-- extractStrokesFromImage: computes the rotated bounding box for the pass
angle, obtains the rotated pixel buffer (the canvas rendering of the scaled,
rotated image is host-provided and abstracted as rotBuf, a function of the
pass angle), raster-scans it and returns the two-point strokes. -/
noncomputable def extractStrokesFromImage (rotBuf : ℚ → Buffer) (targetW targetH : ℕ)
    (angleDeg : ℚ) (spacing : ℕ) (threshold : ℤ) : List (List (ℚ × ℚ)) :=
  (extractSegments (rotBuf angleDeg) (rotDims targetW targetH angleDeg).1
      (rotDims targetW targetH angleDeg).2 spacing threshold).map segToStroke

/-- The pixel-to-millimetre conversion of the process handler:
pt => { x: pt.x * mmPerPx, y: pt.y * mmPerPx }. -/
def mmPoint (mmPerPx : ℚ) (pt : ℚ × ℚ) : ℚ × ℚ :=
  (pt.1 * mmPerPx, pt.2 * mmPerPx)

/-- The contribution of one pass to the combined stroke list: the strokes of
that pass
with every point converted to millimetres. -/
noncomputable def passStrokesMM (rotBuf : ℚ → Buffer) (targetW targetH spacing : ℕ)
    (threshold : ℤ) (mmPerPx : ℚ) (angleDeg : ℚ) : List (List (ℚ × ℚ)) :=
  (extractStrokesFromImage rotBuf targetW targetH angleDeg spacing threshold).map
    (fun st => st.map (mmPoint mmPerPx))

/-- The aggregate produced by one run of the process handler. -/
structure PlotJob where
  targetPxWidth : ℤ
  targetPxHeight : ℤ
  mmPerPx : ℚ
  angles : List ℚ
  strokes : List (List (ℚ × ℚ))

/-- The process-button handler of app.js: clamps the pass count, computes the
target pixel dimensions, the pass angles, the line spacing in pixels, runs
extractStrokesFromImage per pass and concatenates the millimetre-converted
strokes pass by pass. -/
noncomputable def processClick (rotBuf : ℚ → Buffer) (naturalWidth naturalHeight : ℚ)
    (widthMM pxPerMM lineSpacingMM : ℚ) (threshold : ℤ) (angleDeg : ℚ)
    (passesRaw : ℤ) : PlotJob :=
  { targetPxWidth := targetPxWidth widthMM pxPerMM,
    targetPxHeight := targetPxHeight widthMM pxPerMM naturalWidth naturalHeight,
    mmPerPx := 1 / pxPerMM,
    angles := passAngles angleDeg (max 1 passesRaw).toNat,
    strokes :=
      (passAngles angleDeg (max 1 passesRaw).toNat).flatMap
        (passStrokesMM rotBuf (targetPxWidth widthMM pxPerMM).toNat
          (targetPxHeight widthMM pxPerMM naturalWidth naturalHeight).toNat
          (lineSpacingPx lineSpacingMM pxPerMM).toNat threshold (1 / pxPerMM)) }

/-- A compressed view of the row-scanning state machine: instead of the full
list of points of the current run it carries only the first and last
column.  scanRowGo is proved equal to this (scanRowGo_eq_go2); all further
reasoning happens here. -/
def go2 (dark : ℕ → Bool) (y : ℕ) : List ℕ → List Seg → Option (ℕ × ℕ) → List Seg
  | [], acc, none => acc
  | [], acc, some se => acc ++ [((se.1, y), (se.2, y))]
  | x :: xs, acc, none =>
      if dark x then go2 dark y xs acc (some (x, x)) else go2 dark y xs acc none
  | x :: xs, acc, some se =>
      if dark x then go2 dark y xs acc (some (se.1, x))
      else go2 dark y xs (acc ++ [((se.1, y), (se.2, y))]) none

/-- The segment emitted for a run whose first point is (s, y) and whose last
point is (e, y). -/
theorem runSeg_eq (run : List PxPoint) (s e y : ℕ) (hh : run.headD (0, 0) = (s, y))
    (hl : run.getLastD (0, 0) = (e, y)) : runSeg run = ((s, y), (e, y)) := by
  unfold runSeg
  rw [hh, hl]

/-- During a run, the point list of scanRowGo determines only its head and last
point; go2 keeps exactly those. -/
theorem scanRowGo_eq_go2 (dark : ℕ → Bool) (y : ℕ) (xs : List ℕ) :
    (∀ acc, scanRowGo dark y xs acc false [] = go2 dark y xs acc none) ∧
    (∀ acc run s e, run ≠ [] → run.headD (0, 0) = (s, y) → run.getLastD (0, 0) = (e, y) →
      scanRowGo dark y xs acc true run = go2 dark y xs acc (some (s, e))) := by
  induction xs with
  | nil =>
      refine ⟨fun acc => rfl, fun acc run s e hne hh hl => ?_⟩
      have hlen : 1 ≤ run.length := by
        cases run with
        | nil => exact absurd rfl hne
        | cons a l => simp
      simp only [scanRowGo, go2]
      rw [runSeg_eq run s e y hh hl]
      simp [hlen]
  | cons x xs ih =>
      constructor
      · intro acc
        by_cases hd : dark x
        · rw [scanRowGo, go2]
          simp only [hd, if_true]
          exact (ih.2 acc [(x, y)] x x (by simp) (by simp) (by simp))
        · rw [scanRowGo, go2]
          simp only [hd, if_false, Bool.false_eq_true]
          exact ih.1 acc
      · intro acc run s e hne hh hl
        by_cases hd : dark x
        · rw [scanRowGo, go2]
          simp only [hd, if_true]
          refine ih.2 acc (run ++ [(x, y)]) s x (by simp) ?_ (by simp)
          cases run with
          | nil => exact absurd rfl hne
          | cons a l => simpa using hh
        · rw [scanRowGo, go2]
          simp only [hd, if_false, Bool.false_eq_true]
          have hlen : 1 ≤ run.length := by
            cases run with
            | nil => exact absurd rfl hne
            | cons a l => simp
          rw [if_pos hlen, runSeg_eq run s e y hh hl]
          exact ih.1 _

/-- scanRow through the compressed state machine. -/
theorem scanRow_eq_go2 (dark : ℕ → Bool) (rotW y : ℕ) :
    scanRow dark rotW y = go2 dark y (List.range rotW) [] none :=
  (scanRowGo_eq_go2 dark y (List.range rotW)).1 []

/-- Collapse of a maximal dark run of the columns lo .. hi-1: all of
[s, e] is dark, s is not preceded by a dark pixel inside the window, and e is
not followed by one. -/
def IsMaxRunIn (dark : ℕ → Bool) (lo hi s e : ℕ) : Prop :=
  lo ≤ s ∧ s ≤ e ∧ e < hi ∧ (∀ x, s ≤ x → x ≤ e → dark x = true) ∧
    (s = lo ∨ dark (s - 1) = false) ∧ (e + 1 = hi ∨ dark (e + 1) = false)

/-- Maximal dark run of a full row of width w. -/
def IsMaxRun (dark : ℕ → Bool) (w s e : ℕ) : Prop :=
  IsMaxRunIn dark 0 w s e

/-- Membership characterization of the compressed state machine, by
simultaneous induction over the remaining columns for both of its states:
from the idle state the emitted segments are exactly the maximal runs of the
remaining window; inside a run they are the maximal extension of the open run
plus the maximal runs that start strictly later. -/
theorem go2_mem_aux (dark : ℕ → Bool) (y : ℕ) : ∀ n : ℕ,
    (∀ i acc seg, seg ∈ go2 dark y (List.range' i n) acc none ↔
      seg ∈ acc ∨ ∃ s e, seg = ((s, y), (e, y)) ∧ IsMaxRunIn dark i (i + n) s e) ∧
    (∀ i acc s seg, s < i → (∀ x, s ≤ x → x < i → dark x = true) →
      (seg ∈ go2 dark y (List.range' i n) acc (some (s, i - 1)) ↔
        seg ∈ acc ∨
        (∃ e, seg = ((s, y), (e, y)) ∧ i - 1 ≤ e ∧ e < i + n ∧
          (∀ x, s ≤ x → x ≤ e → dark x = true) ∧
          (e + 1 = i + n ∨ dark (e + 1) = false)) ∨
        (∃ u v, seg = ((u, y), (v, y)) ∧ i ≤ u ∧ u ≤ v ∧ v < i + n ∧
          (∀ x, u ≤ x → x ≤ v → dark x = true) ∧ dark (u - 1) = false ∧
          (v + 1 = i + n ∨ dark (v + 1) = false)))) := by
  intro n
  induction n with
  | zero =>
    refine ⟨fun i acc seg => ?_, fun i acc s seg hs hall => ?_⟩
    · simp only [List.range', go2, IsMaxRunIn]
      constructor
      · exact fun h => Or.inl h
      · rintro (h | ⟨u, v, rfl, h1, h2, h3, -⟩)
        · exact h
        · omega
    · simp only [List.range', go2, List.mem_append, List.mem_singleton, IsMaxRunIn]
      constructor
      · rintro (h | h)
        · exact Or.inl h
        · refine Or.inr (Or.inl ⟨i - 1, h, le_refl _, by omega, ?_, Or.inl (by omega)⟩)
          intro x hx1 hx2
          exact hall x hx1 (by omega)
      · rintro (h | ⟨e, rfl, h1, h2, -, -⟩ | ⟨u, v, rfl, h1, h2, h3, -⟩)
        · exact Or.inl h
        · have : e = i - 1 := by omega
          subst this
          exact Or.inr rfl
        · omega
  | succ n ih =>
    have hcons : ∀ i : ℕ, List.range' i (n + 1) = i :: List.range' (i + 1) n := by
      intro i
      simpa using List.range'_succ i n 1
    have harith : ∀ i : ℕ, i + (n + 1) = i + 1 + n := by
      intro i
      omega
    refine ⟨fun i acc seg => ?_, fun i acc s seg hs hall => ?_⟩
    · rw [hcons i, harith i]
      by_cases hd : dark i = true
      · rw [show go2 dark y (i :: List.range' (i + 1) n) acc none
              = go2 dark y (List.range' (i + 1) n) acc (some (i, i)) by
            simp [go2, hd]]
        have hst : (i, i) = (i, i + 1 - 1) := by
          simp
        rw [hst]
        have hone : ∀ x : ℕ, i ≤ x → x < i + 1 → dark x = true := by
          intro x hx1 hx2
          have hxi : x = i := by omega
          rw [hxi]
          exact hd
        rw [ih.2 (i + 1) acc i seg (by omega) hone]
        simp only [IsMaxRunIn]
        constructor
        · rintro (h | ⟨e, rfl, h1, h2, h3, h4⟩ | ⟨u, v, rfl, h1, h2, h3, h4, h5, h6⟩)
          · exact Or.inl h
          · exact Or.inr ⟨i, e, rfl, by omega, by omega, h2, h3, Or.inl rfl, h4⟩
          · exact Or.inr ⟨u, v, rfl, by omega, h2, h3, h4, Or.inr h5, h6⟩
        · rintro (h | ⟨u, v, rfl, h1, h2, h3, h4, h5, h6⟩)
          · exact Or.inl h
          · by_cases hu : u = i
            · subst hu
              exact Or.inr (Or.inl ⟨v, rfl, by omega, h3, h4, h6⟩)
            · refine Or.inr (Or.inr ⟨u, v, rfl, by omega, h2, h3, h4, ?_, h6⟩)
              rcases h5 with h5 | h5
              · omega
              · exact h5
      · rw [show go2 dark y (i :: List.range' (i + 1) n) acc none
              = go2 dark y (List.range' (i + 1) n) acc none by
            simp [go2, hd]]
        rw [ih.1 (i + 1) acc seg]
        simp only [IsMaxRunIn]
        constructor
        · rintro (h | ⟨u, v, rfl, h1, h2, h3, h4, h5, h6⟩)
          · exact Or.inl h
          · refine Or.inr ⟨u, v, rfl, by omega, h2, h3, h4, ?_, h6⟩
            rcases h5 with h5 | h5
            · right
              have hdi : u - 1 = i := by omega
              rw [hdi]
              simpa using hd
            · exact Or.inr h5
        · rintro (h | ⟨u, v, rfl, h1, h2, h3, h4, h5, h6⟩)
          · exact Or.inl h
          · have hui : u ≠ i := by
              intro hui
              have hx := h4 u (le_refl _) h2
              rw [hui] at hx
              exact hd hx
            refine Or.inr ⟨u, v, rfl, by omega, h2, h3, h4, ?_, h6⟩
            rcases h5 with h5 | h5
            · omega
            · exact Or.inr h5
    · rw [hcons i, harith i]
      by_cases hd : dark i = true
      · rw [show go2 dark y (i :: List.range' (i + 1) n) acc (some (s, i - 1))
              = go2 dark y (List.range' (i + 1) n) acc (some (s, i)) by
            simp [go2, hd]]
        have hst : (s, i) = (s, i + 1 - 1) := by
          simp
        rw [hst]
        have hone : ∀ x : ℕ, s ≤ x → x < i + 1 → dark x = true := by
          intro x hx1 hx2
          by_cases hxi : x = i
          · rw [hxi]
            exact hd
          · exact hall x hx1 (by omega)
        rw [ih.2 (i + 1) acc s seg (by omega) hone]
        constructor
        · rintro (h | ⟨e, rfl, h1, h2, h3, h4⟩ | ⟨u, v, rfl, h1, h2, h3, h4, h5, h6⟩)
          · exact Or.inl h
          · exact Or.inr (Or.inl ⟨e, rfl, by omega, h2, h3, h4⟩)
          · exact Or.inr (Or.inr ⟨u, v, rfl, by omega, h2, h3, h4, h5, h6⟩)
        · rintro (h | ⟨e, rfl, h1, h2, h3, h4⟩ | ⟨u, v, rfl, h1, h2, h3, h4, h5, h6⟩)
          · exact Or.inl h
          · have hie : i ≤ e := by
              by_contra hie
              have he : e = i - 1 := by omega
              rcases h4 with h4 | h4
              · omega
              · rw [he, show i - 1 + 1 = i by omega] at h4
                rw [h4] at hd
                exact Bool.false_ne_true hd
            exact Or.inr (Or.inl ⟨e, rfl, by omega, h2, h3, h4⟩)
          · have hui : i + 1 ≤ u := by
              by_contra hui
              have hu : u = i := by omega
              have hprev : dark (i - 1) = true := hall (i - 1) (by omega) (by omega)
              rw [hu] at h5
              rw [h5] at hprev
              exact Bool.false_ne_true hprev
            exact Or.inr (Or.inr ⟨u, v, rfl, hui, h2, h3, h4, h5, h6⟩)
      · rw [show go2 dark y (i :: List.range' (i + 1) n) acc (some (s, i - 1))
              = go2 dark y (List.range' (i + 1) n) (acc ++ [((s, y), (i - 1, y))]) none by
            simp [go2, hd]]
        rw [ih.1 (i + 1) _ seg]
        simp only [List.mem_append, List.mem_singleton, IsMaxRunIn]
        constructor
        · rintro ((h | h) | ⟨u, v, rfl, h1, h2, h3, h4, h5, h6⟩)
          · exact Or.inl h
          · refine Or.inr (Or.inl ⟨i - 1, h, le_refl _, by omega, ?_, ?_⟩)
            · intro x hx1 hx2
              exact hall x hx1 (by omega)
            · right
              rw [show i - 1 + 1 = i by omega]
              simpa using hd
          · refine Or.inr (Or.inr ⟨u, v, rfl, by omega, h2, h3, h4, ?_, h6⟩)
            rcases h5 with h5 | h5
            · have hdi : u - 1 = i := by omega
              rw [hdi]
              simpa using hd
            · exact h5
        · rintro (h | ⟨e, rfl, h1, h2, h3, h4⟩ | ⟨u, v, rfl, h1, h2, h3, h4, h5, h6⟩)
          · exact Or.inl (Or.inl h)
          · have he : e = i - 1 := by
              by_contra he
              have hx : dark i = true := h3 i (by omega) (by omega)
              rw [hx] at hd
              exact hd rfl
            subst he
            exact Or.inl (Or.inr rfl)
          · have hui : u ≠ i := by
              intro hui
              have hx := h4 u (le_refl _) h2
              rw [hui] at hx
              rw [hx] at hd
              exact hd rfl
            exact Or.inr ⟨u, v, rfl, by omega, h2, h3, h4, Or.inr h5, h6⟩


/-- The segments of one scanned row are exactly the maximal dark runs of
that row, collapsed to their extreme columns, both at height y. -/
theorem scanRow_mem (dark : ℕ → Bool) (rotW y : ℕ) (seg : Seg) :
    seg ∈ scanRow dark rotW y ↔ ∃ s e, seg = ((s, y), (e, y)) ∧ IsMaxRun dark rotW s e := by
  rw [scanRow_eq_go2, List.range_eq_range',
    (go2_mem_aux dark y rotW).1 0 [] seg]
  simp [IsMaxRun]

/-- The start columns of the segments emitted along one row strictly
increase, for both states of the machine. -/
theorem go2_pairwise_aux (dark : ℕ → Bool) (y : ℕ) : ∀ n : ℕ,
    (∀ i acc, acc.Pairwise (fun a b : Seg => a.1.1 < b.1.1) → (∀ a ∈ acc, a.1.1 < i) →
      (go2 dark y (List.range' i n) acc none).Pairwise (fun a b => a.1.1 < b.1.1)) ∧
    (∀ i acc s e, acc.Pairwise (fun a b : Seg => a.1.1 < b.1.1) → s ≤ e → e < i →
      (∀ a ∈ acc, a.1.1 < s) →
      (go2 dark y (List.range' i n) acc (some (s, e))).Pairwise
        (fun a b => a.1.1 < b.1.1)) := by
  intro n
  induction n with
  | zero =>
    refine ⟨fun i acc hp _ => ?_, fun i acc s e hp hse hei hlt => ?_⟩
    · simpa [List.range', go2] using hp
    · simp only [List.range', go2]
      rw [List.pairwise_append]
      exact ⟨hp, List.pairwise_singleton _ _, by
        intro a ha b hb
        rw [List.mem_singleton] at hb
        subst hb
        exact hlt a ha⟩
  | succ n ih =>
    have hcons : ∀ i : ℕ, List.range' i (n + 1) = i :: List.range' (i + 1) n := by
      intro i
      simpa using List.range'_succ i n 1
    refine ⟨fun i acc hp hlt => ?_, fun i acc s e hp hse hei hlt => ?_⟩
    · rw [hcons i]
      by_cases hd : dark i = true
      · rw [show go2 dark y (i :: List.range' (i + 1) n) acc none
              = go2 dark y (List.range' (i + 1) n) acc (some (i, i)) by
            simp [go2, hd]]
        exact ih.2 (i + 1) acc i i hp (le_refl _) (by omega) hlt
      · rw [show go2 dark y (i :: List.range' (i + 1) n) acc none
              = go2 dark y (List.range' (i + 1) n) acc none by
            simp [go2, hd]]
        refine ih.1 (i + 1) acc hp ?_
        intro a ha
        exact lt_trans (hlt a ha) (by omega)
    · rw [hcons i]
      by_cases hd : dark i = true
      · rw [show go2 dark y (i :: List.range' (i + 1) n) acc (some (s, e))
              = go2 dark y (List.range' (i + 1) n) acc (some (s, i)) by
            simp [go2, hd]]
        exact ih.2 (i + 1) acc s i hp (by omega) (by omega) hlt
      · rw [show go2 dark y (i :: List.range' (i + 1) n) acc (some (s, e))
              = go2 dark y (List.range' (i + 1) n) (acc ++ [((s, y), (e, y))]) none by
            simp [go2, hd]]
        refine ih.1 (i + 1) _ ?_ ?_
        · rw [List.pairwise_append]
          exact ⟨hp, List.pairwise_singleton _ _, by
            intro a ha b hb
            rw [List.mem_singleton] at hb
            subst hb
            exact hlt a ha⟩
        · intro a ha
          rcases List.mem_append.1 ha with ha | ha
          · exact lt_trans (hlt a ha) (by omega)
          · rw [List.mem_singleton] at ha
            subst ha
            show s < i + 1
            omega

/-- Within one scanned row, segments appear in strictly increasing
start-column order. -/
theorem scanRow_pairwise (dark : ℕ → Bool) (rotW y : ℕ) :
    (scanRow dark rotW y).Pairwise (fun a b => a.1.1 < b.1.1) := by
  rw [scanRow_eq_go2, List.range_eq_range']
  exact (go2_pairwise_aux dark y rotW).1 0 [] (List.Pairwise.nil) (by simp)

/-- Counting iterations of the row loop: the i-th iteration visits
spacing * i, and iterations run while the row index is below rotH. -/
theorem lt_ceil_div_iff (b n i : ℕ) (hb : 1 ≤ b) :
    i < (n + b - 1) / b ↔ b * i < n := by
  rw [Nat.lt_iff_add_one_le, Nat.le_div_iff_mul_le (by omega : 0 < b)]
  have h2 : (i + 1) * b = b * i + b := by ring
  rw [h2]
  generalize b * i = k
  omega

/-- The scanned rows are exactly the multiples of the spacing that lie
strictly below the buffer height. -/
theorem scanRows_mem (spacing rotH : ℕ) (hs : 1 ≤ spacing) (y : ℕ) :
    y ∈ scanRows spacing rotH ↔ spacing ∣ y ∧ y < rotH := by
  simp only [scanRows, List.mem_map, List.mem_range]
  constructor
  · rintro ⟨i, hi, rfl⟩
    exact ⟨Dvd.intro i rfl, (lt_ceil_div_iff spacing rotH i hs).1 hi⟩
  · rintro ⟨⟨i, rfl⟩, hlt⟩
    exact ⟨i, (lt_ceil_div_iff spacing rotH i hs).2 hlt, rfl⟩

/-- Scanned rows strictly increase. -/
theorem scanRows_pairwise (spacing rotH : ℕ) :
    (scanRows spacing rotH).Pairwise (· < ·) := by
  rcases Nat.eq_zero_or_pos spacing with hz | hpos
  · subst hz
    simp [scanRows]
  · unfold scanRows
    rw [List.pairwise_map]
    refine (List.pairwise_lt_range _).imp ?_
    intro a b hab
    exact (Nat.mul_lt_mul_left hpos).2 hab

/-- Scan order of segments: by row, then by start column within a row. -/
def segOrd (a b : Seg) : Prop :=
  a.1.2 < b.1.2 ∨ (a.1.2 = b.1.2 ∧ a.1.1 < b.1.1)

/-- A segment is produced by the scanning pass iff it is the collapse of a
maximal dark run of one of the sampled rows. -/
theorem extractSegments_mem (buf : Buffer) (rotW rotH spacing : ℕ) (threshold : ℤ)
    (hs : 1 ≤ spacing) (seg : Seg) :
    seg ∈ extractSegments buf rotW rotH spacing threshold ↔
      ∃ y s e, seg = ((s, y), (e, y)) ∧ spacing ∣ y ∧ y < rotH ∧
        IsMaxRun (fun x => isDark buf rotW rotH threshold x y) rotW s e := by
  unfold extractSegments
  rw [List.mem_flatMap]
  constructor
  · rintro ⟨y, hy, hseg⟩
    rcases (scanRow_mem _ rotW y seg).1 hseg with ⟨s, e, rfl, hmr⟩
    rcases (scanRows_mem spacing rotH hs y).1 hy with ⟨hdvd, hlt⟩
    exact ⟨y, s, e, rfl, hdvd, hlt, hmr⟩
  · rintro ⟨y, s, e, rfl, hdvd, hlt, hmr⟩
    exact ⟨y, (scanRows_mem spacing rotH hs y).2 ⟨hdvd, hlt⟩,
      (scanRow_mem _ rotW y _).2 ⟨s, e, rfl, hmr⟩⟩

/-- The scanned segments are ordered by increasing row, then by increasing
start column within a row. -/
theorem extractSegments_pairwise (buf : Buffer) (rotW rotH spacing : ℕ) (threshold : ℤ) :
    (extractSegments buf rotW rotH spacing threshold).Pairwise segOrd := by
  unfold extractSegments
  rw [List.pairwise_flatMap]
  constructor
  · intro y hy
    refine (scanRow_pairwise _ rotW y).imp_of_mem ?_
    intro a b ha hb hlt
    rcases (scanRow_mem _ rotW y a).1 ha with ⟨s1, e1, h1, -⟩
    rcases (scanRow_mem _ rotW y b).1 hb with ⟨s2, e2, h2, -⟩
    subst h1
    subst h2
    exact Or.inr ⟨rfl, hlt⟩
  · refine (scanRows_pairwise spacing rotH).imp ?_
    intro y1 y2 h12 a ha b hb
    rcases (scanRow_mem _ rotW y1 a).1 ha with ⟨s1, e1, h1, -⟩
    rcases (scanRow_mem _ rotW y2 b).1 hb with ⟨s2, e2, h2, -⟩
    subst h1
    subst h2
    exact Or.inl h12

/-- A synthetic one-row test image whose dark pixels are exactly the columns
2, 3, 4, 9, 10. -/
def exampleBuf : Buffer := fun x _ =>
  if x = 2 ∨ x = 3 ∨ x = 4 ∨ x = 9 ∨ x = 10 then ⟨0, 0, 0⟩ else ⟨255, 255, 255⟩

/-- A synthetic one-row test image with a single dark pixel at column 5. -/
def singleBuf : Buffer := fun x _ =>
  if x = 5 then ⟨0, 0, 0⟩ else ⟨255, 255, 255⟩

/-- The darkness predicate of the synthetic example row. -/
def exampleDark : ℕ → Bool := fun x =>
  decide (x = 2 ∨ x = 3 ∨ x = 4 ∨ x = 9 ∨ x = 10)

/-- The darkness predicate of the single-pixel example row. -/
def singleDark : ℕ → Bool := fun x => decide (x = 5)

/-- At threshold 128 the dark pixels of the example buffer are exactly the
columns 2, 3, 4, 9, 10. -/
theorem exampleBuf_isDark :
    (fun x => isDark exampleBuf 12 1 128 x 0) = exampleDark := by
  funext x
  by_cases hx : x = 2 ∨ x = 3 ∨ x = 4 ∨ x = 9 ∨ x = 10
  · have hlt : x < 12 := by
      rcases hx with h | h | h | h | h <;> omega
    simp only [isDark, pixelGray, exampleBuf, luma, exampleDark, hx, if_true,
      hlt, and_true, true_and, if_pos (And.intro hlt Nat.zero_lt_one)]
    norm_num
  · by_cases hlt : x < 12
    · simp only [isDark, pixelGray, exampleBuf, luma, exampleDark, hx, if_false,
        if_pos (And.intro hlt Nat.zero_lt_one)]
      norm_num [hx]
    · have hcond : ¬ (x < 12 ∧ 0 < 1) := by
        intro h
        exact hlt h.1
      simp only [isDark, pixelGray, exampleDark, if_neg hcond]
      norm_num [hx]

/-- At threshold 128 the only dark pixel of the single-pixel buffer is column 5. -/
theorem singleBuf_isDark :
    (fun x => isDark singleBuf 8 1 128 x 0) = singleDark := by
  funext x
  by_cases hx : x = 5
  · subst hx
    simp only [isDark, pixelGray, singleBuf, singleDark, luma,
      if_pos (And.intro (by omega : (5:ℕ) < 8) Nat.zero_lt_one), if_pos rfl]
    norm_num
  · by_cases hlt : x < 8
    · simp only [isDark, pixelGray, singleBuf, singleDark, luma, hx, if_false,
        if_pos (And.intro hlt Nat.zero_lt_one)]
      norm_num [hx]
    · have hcond : ¬ (x < 8 ∧ 0 < 1) := by
        intro h
        exact hlt h.1
      simp only [isDark, pixelGray, singleDark, if_neg hcond]
      norm_num [hx]

/-- The scanning pass on the example buffer reduces to one scan of the
example row. -/
theorem extractSegments_exampleBuf :
    extractSegments exampleBuf 12 1 1 128 = scanRow exampleDark 12 0 := by
  unfold extractSegments
  have hrows : scanRows 1 1 = [0] := by decide
  rw [hrows]
  simp only [List.flatMap_cons, List.flatMap_nil, List.append_nil]
  rw [exampleBuf_isDark]

/-- Claim C1: along every scanned row, the Run Scanner emits exactly one
Segment per maximal run of contiguous dark pixels (a membership
characterization plus strictly increasing start columns, so no duplicates),
each collapsed to the two extreme columns of the run at the height of that
row; the
synthetic row whose dark pixels are exactly columns 2, 3, 4, 9, 10 yields
exactly the Segments (2,y)-(4,y) and (9,y)-(10,y), and a single-pixel run
yields a degenerate Segment with start = end. -/
theorem claim_C1_run_collapse (dark : ℕ → Bool) (rotW y : ℕ) (seg : Seg) :
    (seg ∈ scanRow dark rotW y ↔
      ∃ s e, seg = ((s, y), (e, y)) ∧ IsMaxRun dark rotW s e)
    ∧ (scanRow dark rotW y).Pairwise (fun a b => a.1.1 < b.1.1)
    ∧ scanRow (fun x => isDark exampleBuf 12 1 128 x 0) 12 0
        = [((2, 0), (4, 0)), ((9, 0), (10, 0))]
    ∧ scanRow (fun x => isDark singleBuf 8 1 128 x 0) 8 0 = [((5, 0), (5, 0))] := by
  refine ⟨scanRow_mem dark rotW y seg, scanRow_pairwise dark rotW y, ?_, ?_⟩
  · rw [exampleBuf_isDark]
    decide
  · rw [singleBuf_isDark]
    decide

/-- Claim C2: every Segment of a pass lies inside the rotated buffer of that
pass
(start and end columns below rotW, rows below rotH; lower bounds hold since
coordinates are naturals), both of its points share one row, that row is a
multiple of the row spacing, and the sampled rows are exactly the multiples
of the spacing strictly below rotH. -/
theorem claim_C2_segment_bounds (buf : Buffer) (rotW rotH spacing : ℕ) (threshold : ℤ)
    (hs : 1 ≤ spacing) :
    (∀ seg ∈ extractSegments buf rotW rotH spacing threshold,
      seg.1.1 < rotW ∧ seg.2.1 < rotW ∧ seg.1.2 < rotH ∧ seg.2.2 < rotH ∧
        seg.1.2 = seg.2.2 ∧ spacing ∣ seg.1.2)
    ∧ (∀ y, y ∈ scanRows spacing rotH ↔ spacing ∣ y ∧ y < rotH) := by
  constructor
  · intro seg hseg
    rcases (extractSegments_mem buf rotW rotH spacing threshold hs seg).1 hseg
      with ⟨y, s, e, rfl, hdvd, hylt, hmr⟩
    simp only [IsMaxRun, IsMaxRunIn] at hmr
    rcases hmr with ⟨-, hse, hew, -, -, -⟩
    exact ⟨show s < rotW by omega, hew, hylt, hylt, rfl, hdvd⟩
  · exact fun y => scanRows_mem spacing rotH hs y

/-- Witness for claim C2 at a concrete input: the example buffer at spacing 1
produces the segment (2,0)-(4,0), which satisfies the bounds. -/
theorem claim_C2_witness :
    (1 : ℕ) ≤ 1 ∧ ((((2, 0), (4, 0)) : Seg).1.1 < 12 ∧
      (((2, 0), (4, 0)) : Seg).1.2 = (((2, 0), (4, 0)) : Seg).2.2) := by
  have hmem : (((2, 0), (4, 0)) : Seg) ∈ extractSegments exampleBuf 12 1 1 128 := by
    rw [extractSegments_exampleBuf]
    decide
  have h := (claim_C2_segment_bounds exampleBuf 12 1 1 128 (le_refl 1)).1 _ hmem
  exact ⟨le_refl 1, h.1, h.2.2.2.2.1⟩

/-- Claim C10: every emitted Segment has start column at most end column
(start is the leftmost dark pixel of the run, end its rightmost, both
dark), with
equality exactly when the run consists of a single dark pixel. -/
theorem claim_C10_degenerate (dark : ℕ → Bool) (rotW y : ℕ) :
    ∀ seg ∈ scanRow dark rotW y,
      seg.1.1 ≤ seg.2.1 ∧ dark seg.1.1 = true ∧ dark seg.2.1 = true ∧
        (seg.1.1 = seg.2.1 ↔
          ∀ x, seg.1.1 ≤ x → x ≤ seg.2.1 → dark x = true → x = seg.1.1) := by
  intro seg hseg
  rcases (scanRow_mem dark rotW y seg).1 hseg with ⟨s, e, rfl, hmr⟩
  simp only [IsMaxRun, IsMaxRunIn] at hmr
  rcases hmr with ⟨-, hse, -, hall, -, -⟩
  refine ⟨hse, hall s (le_refl s) hse, hall e hse (le_refl e), ?_, ?_⟩
  · intro hcol x hx1 hx2 _
    have hcol2 : s = e := hcol
    have hx1b : s ≤ x := hx1
    have hx2b : x ≤ e := hx2
    show x = s
    omega
  · intro hone
    have he : e = s := hone e hse (le_refl e) (hall e hse (le_refl e))
    show s = e
    omega

/-- Witness for claim C10 at a concrete input: the single-pixel run at
column 5 gives the degenerate segment (5,0)-(5,0). -/
theorem claim_C10_witness :
    (((5, 0), (5, 0)) : Seg).1.1 ≤ (((5, 0), (5, 0)) : Seg).2.1 ∧
      singleDark (((5, 0), (5, 0)) : Seg).1.1 = true := by
  have hmem : (((5, 0), (5, 0)) : Seg) ∈ scanRow singleDark 8 0 := by
    decide
  have h := claim_C10_degenerate singleDark 8 0 _ hmem
  exact ⟨h.1, h.2.1⟩

/-- For a nonnegative dividend the JavaScript remainder by 360 is the
fractional part of the division, scaled back. -/
theorem jsMod_eq_fract (a : ℚ) (ha : 0 ≤ a) :
    jsMod a 360 = 360 * Int.fract (a / 360) := by
  unfold jsMod ratTrunc
  rw [if_pos (by positivity : (0 : ℚ) ≤ a / 360)]
  rw [Int.fract]
  field_simp

/-- A value already inside [0, 360) is fixed by the remainder. -/
theorem jsMod_of_lt (a : ℚ) (h0 : 0 ≤ a) (h1 : a < 360) : jsMod a 360 = a := by
  unfold jsMod ratTrunc
  rw [if_pos (by positivity : (0 : ℚ) ≤ a / 360)]
  have hz : ⌊a / 360⌋ = 0 := by
    rw [Int.floor_eq_zero_iff]
    constructor
    · positivity
    · exact (div_lt_one (by norm_num)).2 h1
  rw [hz]
  simp

/-- Claim C4, counterexample: for base angle -10 and one pass the generated
angle list is [-10], which does not lie in [0, 360) — the JavaScript
remainder keeps the sign of the dividend instead of normalizing into
[0, 360). -/
theorem claim_C4_counterexample :
    passAngles (-10) 1 = [-10] ∧ ¬ (0 ≤ (-10 : ℚ)) := by
  constructor
  · have hr : List.range 1 = [0] := rfl
    simp only [passAngles, hr, List.map_cons, List.map_nil]
    norm_num [jsMod, ratTrunc]
  · norm_num

/-- Claim C4, amended: the orchestrator computes exactly N angles
angle_p = (baseAngle + p*180/N) % 360 with the JavaScript remainder; for a
NONNEGATIVE base angle every generated angle lies in [0, 360), and for base
angle 0 the angles are exactly p*180/N for p = 0 .. N-1 (negative base
angles yield negative representatives, as the counterexample shows). -/
theorem claim_C4_angles (base : ℚ) (N : ℕ) (hN : 1 ≤ N) :
    (passAngles base N).length = N
    ∧ (0 ≤ base → ∀ a ∈ passAngles base N, 0 ≤ a ∧ a < 360)
    ∧ passAngles 0 N
        = (List.range N).map (fun (p : ℕ) => (p : ℚ) * 180 / (N : ℚ)) := by
  have hN0 : (0 : ℚ) < (N : ℚ) := by
    exact_mod_cast hN
  refine ⟨by simp [passAngles], ?_, ?_⟩
  · intro hb a ha
    rcases List.mem_map.1 ha with ⟨p, hp, rfl⟩
    have hq : 0 ≤ base + (p : ℚ) * 180 / (N : ℚ) :=
      add_nonneg hb (by positivity)
    rw [jsMod_eq_fract _ hq]
    constructor
    · have := Int.fract_nonneg ((base + (p : ℚ) * 180 / (N : ℚ)) / 360)
      positivity
    · have hlt := Int.fract_lt_one ((base + (p : ℚ) * 180 / (N : ℚ)) / 360)
      nlinarith [Int.fract_nonneg ((base + (p : ℚ) * 180 / (N : ℚ)) / 360)]
  · unfold passAngles
    refine List.map_congr_left ?_
    intro p hp
    rw [List.mem_range] at hp
    have hpN : (p : ℚ) < (N : ℚ) := by
      exact_mod_cast hp
    have h0 : (0 : ℚ) ≤ (p : ℚ) * 180 / (N : ℚ) := by positivity
    have h1 : (p : ℚ) * 180 / (N : ℚ) < 360 := by
      rw [div_lt_iff₀ hN0]
      nlinarith
    rw [zero_add, jsMod_of_lt _ h0 h1]

/-- Witness for the amended claim C4 at base angle 5 with 2 passes: the
first angle is nonnegative and below 360. -/
theorem claim_C4_witness :
    (1 : ℕ) ≤ 2 ∧ (0 : ℚ) ≤ 5 ∧
      (0 ≤ jsMod (5 + ((0 : ℕ) : ℚ) * 180 / ((2 : ℕ) : ℚ)) 360 ∧
        jsMod (5 + ((0 : ℕ) : ℚ) * 180 / ((2 : ℕ) : ℚ)) 360 < 360) := by
  refine ⟨by norm_num, by norm_num, ?_⟩
  refine (claim_C4_angles 5 2 (by norm_num)).2.1 (by norm_num) _ ?_
  exact List.mem_map.2 ⟨0, List.mem_range.2 (by norm_num), rfl⟩

/-- Claim C6: the Rasterizer computes targetPxWidth as round(width * px/mm)
floored at 1 (round = floor of the value plus one half, as Math.round), the
uniform scale factor as targetPxWidth / naturalWidth, and targetPxHeight as
round(naturalHeight * scale). -/
theorem claim_C6_rasterizer (widthMM pxPerMM naturalWidth naturalHeight : ℚ)
    (hpos : 0 < naturalWidth) :
    targetPxWidth widthMM pxPerMM = max 1 ⌊widthMM * pxPerMM + 1 / 2⌋
    ∧ scaleFactor widthMM pxPerMM naturalWidth
        = (targetPxWidth widthMM pxPerMM : ℚ) / naturalWidth
    ∧ targetPxHeight widthMM pxPerMM naturalWidth naturalHeight
        = ⌊naturalHeight * ((targetPxWidth widthMM pxPerMM : ℚ) / naturalWidth) + 1 / 2⌋ :=
  ⟨rfl, rfl, rfl⟩

/-- Witness for claim C6: a 10 mm target at 1 px/mm over a 5-px-wide source. -/
theorem claim_C6_witness :
    (0 : ℚ) < 5 ∧ targetPxWidth 10 1 = max 1 ⌊(10 : ℚ) * 1 + 1 / 2⌋ :=
  ⟨by norm_num, (claim_C6_rasterizer 10 1 5 7 (by norm_num)).1⟩

/-- Claim C7: the destination buffer dimensions of the Rotator are
rotW = ceil(W*|cos(angleRad)| + H*|sin(angleRad)|) and
rotH = ceil(W*|sin(angleRad)| + H*|cos(angleRad)|) with
angleRad = angleDeg * pi / 180; at angle 0 they equal the source
dimensions. -/
theorem claim_C7_rot_dims (w h : ℕ) (angleDeg : ℚ) :
    rotDims w h angleDeg
      = (⌈(w : ℝ) * |Real.cos ((angleDeg : ℝ) * Real.pi / 180)| +
           (h : ℝ) * |Real.sin ((angleDeg : ℝ) * Real.pi / 180)|⌉₊,
         ⌈(w : ℝ) * |Real.sin ((angleDeg : ℝ) * Real.pi / 180)| +
           (h : ℝ) * |Real.cos ((angleDeg : ℝ) * Real.pi / 180)|⌉₊)
    ∧ rotDims w h 0 = (w, h) := by
  refine ⟨rfl, ?_⟩
  unfold rotDims
  norm_num [Real.cos_zero, Real.sin_zero, Nat.ceil_natCast]

/-- An all-white test image. -/
def whiteBuf : Buffer := fun _ _ => ⟨255, 255, 255⟩

/-- Claim C5, counterexample: the target width -5 mm is an invalid input
(non-positive target width), yet the pipeline raises no error: it clamps the
computed pixel width to 1 and produces exactly the same complete PlotJob as
the valid width 1/2 mm does. -/
theorem claim_C5_counterexample :
    targetPxWidth (-5) 2 = 1 ∧
      processClick (fun _ => whiteBuf) 4 4 (-5) 2 1 128 0 1
        = processClick (fun _ => whiteBuf) 4 4 (1 / 2) 2 1 128 0 1 := by
  have h1 : targetPxWidth (-5) 2 = 1 := by
    unfold targetPxWidth jsRound
    norm_num
  have h2 : targetPxWidth (1 / 2) 2 = 1 := by
    unfold targetPxWidth jsRound
    norm_num
  refine ⟨h1, ?_⟩
  unfold processClick targetPxHeight scaleFactor
  rw [h1, h2]

/-- Claim C5, amended: the pipeline performs no eager input validation and
surfaces no InvalidInput error; instead it clamps the target pixel width,
the line spacing in pixels and the pass count to at least 1, uses the
threshold unchecked, and always produces a complete PlotJob built from the
clamped values. -/
theorem claim_C5_no_validation (rotBuf : ℚ → Buffer) (nw nh w ppm ls : ℚ)
    (thr : ℤ) (ang : ℚ) (pr : ℤ) :
    1 ≤ targetPxWidth w ppm ∧ 1 ≤ lineSpacingPx ls ppm ∧ 1 ≤ (max 1 pr).toNat ∧
      (processClick rotBuf nw nh w ppm ls thr ang pr).targetPxWidth
        = targetPxWidth w ppm ∧
      (processClick rotBuf nw nh w ppm ls thr ang pr).angles.length
        = (max 1 pr).toNat := by
  refine ⟨le_max_left 1 _, le_max_left 1 _, ?_, rfl, ?_⟩
  · have hp : (1 : ℤ) ≤ max 1 pr := le_max_left 1 pr
    omega
  · simp [processClick, passAngles]

/-- Claim C9: the pipeline is deterministic — two invocations of the
orchestration on identical inputs (same host-rendered rotated buffers, same
image dimensions and numeric parameters) produce identical PlotJobs, and in
particular bit-identical stroke lists. -/
theorem claim_C9_determinism (rotBuf1 rotBuf2 : ℚ → Buffer) (nw1 nw2 nh1 nh2 : ℚ)
    (w1 w2 ppm1 ppm2 ls1 ls2 : ℚ) (thr1 thr2 : ℤ) (ang1 ang2 : ℚ) (pr1 pr2 : ℤ)
    (hbuf : rotBuf1 = rotBuf2) (hnw : nw1 = nw2) (hnh : nh1 = nh2) (hw : w1 = w2)
    (hppm : ppm1 = ppm2) (hls : ls1 = ls2) (hthr : thr1 = thr2) (hang : ang1 = ang2)
    (hpr : pr1 = pr2) :
    processClick rotBuf1 nw1 nh1 w1 ppm1 ls1 thr1 ang1 pr1
      = processClick rotBuf2 nw2 nh2 w2 ppm2 ls2 thr2 ang2 pr2 ∧
    (processClick rotBuf1 nw1 nh1 w1 ppm1 ls1 thr1 ang1 pr1).strokes
      = (processClick rotBuf2 nw2 nh2 w2 ppm2 ls2 thr2 ang2 pr2).strokes := by
  subst hbuf
  subst hnw
  subst hnh
  subst hw
  subst hppm
  subst hls
  subst hthr
  subst hang
  subst hpr
  exact ⟨rfl, rfl⟩

/-- Witness for claim C9 at a concrete input. -/
theorem claim_C9_witness :
    (processClick (fun _ => whiteBuf) 4 4 1 1 1 128 0 1
        = processClick (fun _ => whiteBuf) 4 4 1 1 1 128 0 1) ∧
      (processClick (fun _ => whiteBuf) 4 4 1 1 1 128 0 1).strokes
        = (processClick (fun _ => whiteBuf) 4 4 1 1 1 128 0 1).strokes :=
  claim_C9_determinism (fun _ => whiteBuf) (fun _ => whiteBuf) 4 4 4 4 1 1 1 1 1 1
    128 128 0 0 1 1 rfl rfl rfl rfl rfl rfl rfl rfl rfl

/-- One emitted motion-code line, abstracting the textual G-code lines of the
download handler (comment texts carry no data except the stroke number). -/
inductive GInstr where
  | commentGen
  | unitsMM
  | posAbs
  | posRel
  | rapidZ (z : ℚ)
  | setFeed (f : ℚ)
  | blank
  | strokeComment (n : ℕ)
  | rapidXY (x y : ℚ)
  | linearXY (x y : ℚ)
  | eofComment
deriving DecidableEq

/-- The header of the download handler: banner comment, G21, G90 or G91,
pen-up Z move (toFixed(3)), travel feed, blank line. -/
def gcodeHeader (penUpZ feedTravel : ℚ) (absolute : Bool) : List GInstr :=
  [GInstr.commentGen, GInstr.unitsMM,
   if absolute then GInstr.posAbs else GInstr.posRel,
   GInstr.rapidZ (fix3 penUpZ), GInstr.setFeed feedTravel, GInstr.blank]

/-- The per-stroke body of the download handler for one (index, stroke) pair:
empty strokes are skipped; otherwise a stroke comment, a travel move to the
first point, pen down, draw feed, one G1 per subsequent point, pen up and the
travel feed again.  X, Y and Z numbers go through toFixed(3). -/
def strokeLines (penDownZ penUpZ feedTravel feedDraw : ℚ) (idx : ℕ)
    (stroke : List (ℚ × ℚ)) : List GInstr :=
  match stroke with
  | [] => []
  | p0 :: rest =>
      [GInstr.strokeComment (idx + 1),
       GInstr.rapidXY (fix3 p0.1) (fix3 p0.2),
       GInstr.rapidZ (fix3 penDownZ), GInstr.setFeed feedDraw] ++
      rest.map (fun p => GInstr.linearXY (fix3 p.1) (fix3 p.2)) ++
      [GInstr.rapidZ (fix3 penUpZ), GInstr.setFeed feedTravel]

/-- The download handler of app.js: header, then a fold over the strokes with
their indices appending the lines of each stroke, then a blank line and the
EOF
comment. -/
def emitGcode (strokes : List (List (ℚ × ℚ))) (penDownZ penUpZ feedTravel feedDraw : ℚ)
    (absolute : Bool) : List GInstr :=
  (strokes.enum.foldl
    (fun lines pr => lines ++ strokeLines penDownZ penUpZ feedTravel feedDraw pr.1 pr.2)
    (gcodeHeader penUpZ feedTravel absolute)) ++ [GInstr.blank, GInstr.eofComment]

/-- Scan order of millimetre strokes: by the row of the start point, then by
its x coordinate. -/
def strokeOrd (s1 s2 : List (ℚ × ℚ)) : Prop :=
  (s1.headD (0, 0)).2 < (s2.headD (0, 0)).2 ∨
    ((s1.headD (0, 0)).2 = (s2.headD (0, 0)).2 ∧
      (s1.headD (0, 0)).1 < (s2.headD (0, 0)).1)

/-- Within one pass the millimetre-converted strokes inherit the scan order
of the pixel segments: increasing scan row, then increasing start column. -/
theorem passStrokesMM_pairwise (rotBuf : ℚ → Buffer) (tpw tph spacing : ℕ)
    (thr : ℤ) (mmPerPx : ℚ) (hmm : 0 < mmPerPx) (ang : ℚ) :
    (passStrokesMM rotBuf tpw tph spacing thr mmPerPx ang).Pairwise strokeOrd := by
  unfold passStrokesMM extractStrokesFromImage
  rw [List.map_map, List.pairwise_map]
  refine (extractSegments_pairwise _ _ _ _ _).imp_of_mem ?_
  intro a b ha hb hab
  simp only [Function.comp, strokeOrd, segToStroke, mmPoint, List.map_cons,
    List.map_nil, List.headD_cons]
  rcases hab with hlt | ⟨heq, hlt⟩
  · exact Or.inl (mul_lt_mul_of_pos_right (by exact_mod_cast hlt) hmm)
  · exact Or.inr ⟨by rw [heq], mul_lt_mul_of_pos_right (by exact_mod_cast hlt) hmm⟩

/-- Claim C3: the merged stroke list of a job is exactly the concatenation,
pass by pass in generation order, of the per-pass stroke lists, and within
each pass the strokes appear in increasing scan-row order and, within one
row, in increasing start-x order. -/
theorem claim_C3_ordering (rotBuf : ℚ → Buffer) (nw nh w ppm ls : ℚ) (thr : ℤ)
    (ang : ℚ) (pr : ℤ) (hppm : 0 < ppm) :
    (processClick rotBuf nw nh w ppm ls thr ang pr).strokes
      = (passAngles ang (max 1 pr).toNat).flatMap
          (passStrokesMM rotBuf (targetPxWidth w ppm).toNat
            (targetPxHeight w ppm nw nh).toNat (lineSpacingPx ls ppm).toNat thr
            (1 / ppm))
    ∧ ∀ a : ℚ,
        (passStrokesMM rotBuf (targetPxWidth w ppm).toNat
          (targetPxHeight w ppm nw nh).toNat (lineSpacingPx ls ppm).toNat thr
          (1 / ppm) a).Pairwise strokeOrd := by
  refine ⟨rfl, ?_⟩
  intro a
  exact passStrokesMM_pairwise _ _ _ _ _ _ (one_div_pos.mpr hppm) a

/-- Witness for claim C3 at a concrete input. -/
theorem claim_C3_witness :
    (0 : ℚ) < 1 ∧
      (processClick (fun _ => whiteBuf) 4 4 1 1 1 128 0 1).strokes
        = (passAngles 0 (max 1 (1 : ℤ)).toNat).flatMap
            (passStrokesMM (fun _ => whiteBuf) (targetPxWidth 1 1).toNat
              (targetPxHeight 1 1 4 4).toNat (lineSpacingPx 1 1).toNat 128
              (1 / 1)) :=
  ⟨by norm_num,
    (claim_C3_ordering (fun _ => whiteBuf) 4 4 1 1 1 128 0 1 (by norm_num)).1⟩

/-- A rational with at most three decimal places. -/
def milli (q : ℚ) : Prop := ∃ a : ℤ, q = (a : ℚ) / 1000

/-- Specification predicate: every coordinate or Z number carried by an
instruction has at most three decimal places. -/
def coordFormatted : GInstr → Prop
  | GInstr.rapidXY x y => milli x ∧ milli y
  | GInstr.linearXY x y => milli x ∧ milli y
  | GInstr.rapidZ z => milli z
  | _ => True

/-- toFixed(3) always produces a value with three decimal places. -/
theorem milli_fix3 (q : ℚ) : milli (fix3 q) :=
  ⟨⌊q * 1000 + 1 / 2⌋, rfl⟩

/-- A fold that only appends per-element blocks is the concatenation of the
blocks after the initial segment. -/
theorem foldl_append_eq_flatMap {α β : Type} (f : α → List β) :
    ∀ (l : List α) (init : List β),
      l.foldl (fun acc a => acc ++ f a) init = init ++ l.flatMap f := by
  intro l
  induction l with
  | nil =>
    intro init
    simp
  | cons a t ih =>
    intro init
    simp only [List.foldl_cons, List.flatMap_cons, ih, List.append_assoc]

/-- Claim C8: the emitter skips every empty stroke and, for every stroke
with at least one point, emits exactly one travel move to its first point,
one pen-down directive, one draw-feed directive, one linear draw move per
subsequent point, and one pen-up directive followed by the travel feed
again, after the fixed header and before the fixed footer; every X, Y and Z
number in the output has at most three decimal places. -/
theorem claim_C8_emitter (strokes : List (List (ℚ × ℚ)))
    (penDownZ penUpZ feedTravel feedDraw : ℚ) (absolute : Bool) :
    emitGcode strokes penDownZ penUpZ feedTravel feedDraw absolute
      = gcodeHeader penUpZ feedTravel absolute
        ++ strokes.enum.flatMap
            (fun pr => strokeLines penDownZ penUpZ feedTravel feedDraw pr.1 pr.2)
        ++ [GInstr.blank, GInstr.eofComment]
    ∧ ∀ instr ∈ emitGcode strokes penDownZ penUpZ feedTravel feedDraw absolute,
        coordFormatted instr := by
  have heq : emitGcode strokes penDownZ penUpZ feedTravel feedDraw absolute
      = gcodeHeader penUpZ feedTravel absolute
        ++ strokes.enum.flatMap
            (fun pr => strokeLines penDownZ penUpZ feedTravel feedDraw pr.1 pr.2)
        ++ [GInstr.blank, GInstr.eofComment] := by
    unfold emitGcode
    rw [foldl_append_eq_flatMap]
  refine ⟨heq, ?_⟩
  intro instr hmem
  rw [heq] at hmem
  rcases List.mem_append.1 hmem with hmem | hmem
  · rcases List.mem_append.1 hmem with hmem | hmem
    · unfold gcodeHeader at hmem
      rcases absolute with _ | _ <;>
        simp only [Bool.false_eq_true, if_true, if_false, List.mem_cons,
          List.mem_singleton, List.not_mem_nil, or_false] at hmem <;>
        rcases hmem with rfl | rfl | rfl | rfl | rfl | rfl <;>
        first
          | exact trivial
          | exact milli_fix3 penUpZ
    · rcases List.mem_flatMap.1 hmem with ⟨pr, hpr, hin⟩
      rcases pr with ⟨idx, stroke⟩
      rcases stroke with _ | ⟨p0, rest⟩
      · simp [strokeLines] at hin
      · simp only [strokeLines, List.cons_append, List.nil_append, List.mem_cons,
          List.mem_append, List.mem_map, List.mem_singleton, List.not_mem_nil,
          or_false] at hin
        rcases hin with rfl | rfl | rfl | rfl | hin | rfl | rfl
        · exact trivial
        · exact ⟨milli_fix3 p0.1, milli_fix3 p0.2⟩
        · exact milli_fix3 penDownZ
        · exact trivial
        · rcases hin with ⟨p, hp, rfl⟩
          exact ⟨milli_fix3 p.1, milli_fix3 p.2⟩
        · exact milli_fix3 penUpZ
        · exact trivial
  · rcases List.mem_cons.1 hmem with rfl | hmem
    · exact trivial
    · rcases List.mem_singleton.1 hmem with rfl
      exact trivial

/-- Witness for claim C8: the pen-up line of the header of an empty job
carries a three-decimal number. -/
theorem claim_C8_witness : coordFormatted (GInstr.rapidZ (fix3 2)) := by
  refine (claim_C8_emitter [] 1 2 3 4 true).2 (GInstr.rapidZ (fix3 2)) ?_
  simp [emitGcode, gcodeHeader]

end PenPlotter
